import Mathlib

/-!
Verification of the news-aggregator core (feed aggregation pipeline).

The definitions below are a shallow embedding of the service-based server
implementation of this repository (the `LRUCache`, `TranslationService`,
`RSSService` and `SearchService` classes, cross-checked against the legacy
`server.js` variant where the two agree).  JavaScript values probed by the
duck-typed XML normalizer are modelled by the inductive `JVal`; JS `Map`
objects (which iterate in insertion order) are modelled by association
lists; machine time (`Date.now()`) is passed explicitly as an integer.
-/

set_option maxRecDepth 10000

namespace NewsAgg

/-- JS `||` on strings: returns the first operand when it is truthy
(non-empty), else the second. -/
def jsOrS (a b : String) : String :=
  if a = "" then b else a

/-- Model of a parsed XML node as probed by the normalizer: a string, an
array, or an object carrying the only properties the code ever reads
(`_` text content, `$.href`, `href`, `url`, `$.url`, `type`). -/
inductive JVal where
  | vstr (s : String)
  | varr (elems : List JVal)
  | vobj (underscore : Option JVal) (dollarHref : Option String) (href : Option String)
         (url : Option String) (dollarUrl : Option String) (typ : Option String)
deriving Repr

/-- JS truthiness of a `JVal`: the empty string is falsy; arrays and
objects are always truthy. -/
def jsTruthy : JVal → Bool
  | .vstr s => !(s == "")
  | .varr _ => true
  | .vobj .. => true

/-- JS truthiness of a possibly-absent value (`undefined` is falsy). -/
def jsTruthyO : Option JVal → Bool
  | none => false
  | some v => jsTruthy v

/-- Tail of `getText` for the object case: `if (val.$?.href) return
val.$.href; return ''`. -/
def hrefFallback : Option String → String
  | some h => if h = "" then "" else h
  | none => ""

/-- Body of `getText` on a truthy value (the wrapper `getText` re-applies
the `if (!val) return ''` guard before every recursive call, as the JS
code does). -/
def getTextV : JVal → String
  | .vstr s => s
  | .varr [] => ""
  | .varr (x :: _) => if jsTruthy x then getTextV x else ""
  | .vobj u dh _ _ _ _ =>
      match u with
      | some uv => if jsTruthy uv then getTextV uv else hrefFallback dh
      | none => hrefFallback dh

/-- The `getText` helper of `RSSService._normalizeItem`: extract a plain
string from a duck-typed parsed-XML value. -/
def getText : Option JVal → String
  | none => ""
  | some v => if jsTruthy v then getTextV v else ""

/-- First pass of `stripHtml`, as a left-to-right scanner equivalent to
the global replacement of the regex `<[^>]+>` by a single space: from
`'<'` onwards, `acc` accumulates (reversed) the non-`'>'` characters
seen; a closing `'>'` after at least one such character ends a match,
an immediate `'>'` or the end of input means the `'<'` matched nothing
and is kept literally. -/
def stripTagsGo : List Char → Option (List Char) → List Char
  | [], none => []
  | [], some acc => '<' :: acc.reverse
  | c :: rest, none =>
      if c = '<' then stripTagsGo rest (some [])
      else c :: stripTagsGo rest none
  | c :: rest, some acc =>
      if c = '>' then
        if acc.isEmpty then '<' :: '>' :: stripTagsGo rest none
        else ' ' :: stripTagsGo rest none
      else stripTagsGo rest (some (c :: acc))

/-- Tag stripping on a character list (regex `/<[^>]+>/g` to a space). -/
def stripTags (l : List Char) : List Char :=
  stripTagsGo l none

/-- Second pass of `stripHtml`: the global replacement of `/\s+/` by a
single space (JS `\s` modelled by `Char.isWhitespace`). -/
def collapseWs : List Char → List Char
  | [] => []
  | [c] => if c.isWhitespace then [' '] else [c]
  | c1 :: c2 :: rest =>
      if c1.isWhitespace then
        if c2.isWhitespace then collapseWs (c2 :: rest)
        else ' ' :: collapseWs (c2 :: rest)
      else c1 :: collapseWs (c2 :: rest)

/-- JS `String.prototype.trim`: drop leading and trailing whitespace. -/
def jsTrim (s : String) : String :=
  String.mk ((((s.data.dropWhile Char.isWhitespace).reverse).dropWhile Char.isWhitespace).reverse)

/-- JS `String.prototype.substring(0, n)` (and `slice(0, n)`), counting
characters. -/
def jsTake (s : String) (n : Nat) : String :=
  String.mk (s.data.take n)

/-- The `stripHtml` helper: strip tags, collapse whitespace runs, trim. -/
def stripHtml (s : String) : String :=
  jsTrim (String.mk (collapseWs (stripTags s.data)))

/-- Canonical Article record produced by the normalizer.  `publishedAt`
is the optional ISO string (null modelled as `none`), `publishedAtMs`
the epoch milliseconds (0 when unknown), `imageUrl` nullable. -/
structure Article where
  id : String
  source : String
  sourceTitle : String
  title : String
  snippet : String
  link : String
  imageUrl : Option String
  fullText : String
  publishedAt : Option String
  publishedAtMs : Int
deriving Repr, DecidableEq

/-- Parsed feed item as probed by `_normalizeItem`: each field the code
reads, absent fields being `none`.  The date fields are the string values
handed to `new Date`; `mediaGroupContent` models the probe
`item['media:group']?.['media:content']`. -/
structure Item where
  title : Option JVal := none
  description : Option JVal := none
  summary : Option JVal := none
  mediaDescription : Option JVal := none
  contentEncoded : Option JVal := none
  link : Option JVal := none
  mediaContent : Option JVal := none
  mediaThumbnail : Option JVal := none
  mediaGroupContent : Option JVal := none
  enclosure : Option JVal := none
  pubDate : Option String := none
  published : Option String := none
  updated : Option String := none
  date : Option String := none
  guid : Option JVal := none
  idField : Option JVal := none
deriving Repr

/-- Environment abstracting the JS `Date` runtime: `parse` is
`new Date(s).getTime()` (`none` for an invalid date), `iso` is
`Date.prototype.toISOString` on an epoch-milliseconds value. -/
structure JsDateEnv where
  parse : String → Option Int
  iso : Int → String

/-- JS `||` on possibly-absent parsed-XML values: the first truthy
operand, else the second operand (which, as in JS, is returned even when
it is itself falsy). -/
def jsOr (a b : Option JVal) : Option JVal :=
  if jsTruthyO a then a else b

/-- JS `||` on optional strings where `undefined` and `''` are both
falsy: the first truthy operand, else the second operand as-is. -/
def jsOrSO (a b : Option String) : Option String :=
  match a with
  | some s => if s = "" then b else some s
  | none => b

/-- Link extraction of `_normalizeItem`: a plain string link, else the
object's truthy `href`, else for an array the first entry whose `type`
is `text/html` or falsy, falling back to the first entry's `href`. -/
def extractLinkItem : Option JVal → String
  | some (.vstr s) => s
  | some (.vobj _ _ href _ _ _) =>
      match href with
      | some h => if h = "" then "" else h
      | none => ""
  | some (.varr elems) =>
      let isHtmlOrUntyped : JVal → Bool := fun l =>
        match l with
        | .vobj _ _ _ _ _ typ =>
            match typ with
            | some t => t = "text/html" || t = ""
            | none => true
        | _ => true
      let hrefOf : JVal → Option String := fun l =>
        match l with
        | .vobj _ _ href _ _ _ => href
        | _ => none
      let found : Option String := (elems.find? isHtmlOrUntyped).bind hrefOf
      let fallback : Option String := elems.head?.bind hrefOf
      (jsOrSO (jsOrSO found fallback) (some "")).getD ""
  | none => ""

/-- The `findUrl` helper of `_normalizeItem`: `obj?.url || obj?.$?.url`. -/
def findUrl : Option JVal → Option String
  | some (.vobj _ _ _ url dollarUrl _) => jsOrSO url dollarUrl
  | _ => none

/-- Image extraction of `_normalizeItem`: probe `media:content`,
`media:thumbnail` and the media group's content (first truthy wins, the
last candidate surviving even when falsy, as JS `||` does); an array is
probed at its first element; otherwise fall back to the enclosure. -/
def extractImageItem (item : Item) : Option String :=
  let enclosureUrl : Option String :=
    match item.enclosure with
    | some e =>
        if jsTruthy e then
          match e with
          | .varr elems => findUrl elems.head?
          | _ => findUrl (some e)
        else none
    | none => none
  let media := jsOr (jsOr item.mediaContent item.mediaThumbnail) item.mediaGroupContent
  match media with
  | some (.varr elems) => findUrl elems.head?
  | some m => if jsTruthy m then findUrl (some m) else enclosureUrl
  | none => enclosureUrl

/-- The `RSSService._normalizeItem` method: build one canonical Article
from a parsed feed item, every missing field degrading to a default. -/
def normalizeItem (env : JsDateEnv) (feedTitles : String → Option String)
    (sourceKey : String) (item : Item) (index : Nat) : Article :=
  let title := stripHtml (getText item.title)
  let description := stripHtml
    (jsOrS (jsOrS (jsOrS (getText item.description) (getText item.summary))
      (getText item.mediaDescription)) (getText item.contentEncoded))
  let link := extractLinkItem item.link
  let imageUrl := extractImageItem item
  let pubDateStr := jsOrSO (jsOrSO (jsOrSO item.pubDate item.published) item.updated) item.date
  let pubMs : Option Int :=
    match pubDateStr with
    | some s => if s = "" then none else env.parse s
    | none => none
  let publishedAt := pubMs.map env.iso
  let publishedAtMs := pubMs.getD 0
  let id := jsOrS (jsOrS (jsOrS (getText item.guid) (getText item.idField)) link)
    (sourceKey ++ "-" ++ toString publishedAtMs ++ "-" ++ toString index)
  let rawFull := jsOrS (jsOrS (getText item.contentEncoded) description) ""
  let fullText := jsTake (stripHtml rawFull) 4000
  { id := id
    source := sourceKey
    sourceTitle := jsOrS ((feedTitles sourceKey).getD "") sourceKey
    title := jsOrS title "(No Title)"
    snippet := jsOrS description "(No Description)"
    link := link
    imageUrl := imageUrl
    fullText := if 3 < fullText.length then fullText else description
    publishedAt := publishedAt
    publishedAtMs := publishedAtMs }

/-- JS `Map` modelled as an association list in insertion order (keys are
unique; `set` of an existing key updates in place, a fresh key is
appended at the end, matching `Map` iteration order). -/
abbrev JsMap (α : Type) := List (String × α)

/-- Lookup (`Map.prototype.get`); `none` for an absent key. -/
def mGet {α : Type} (m : JsMap α) (k : String) : Option α :=
  match m.find? (fun p => p.1 = k) with
  | some p => some p.2
  | none => none

/-- Membership (`Map.prototype.has`). -/
def mHas {α : Type} (m : JsMap α) (k : String) : Bool :=
  (m.find? (fun p => p.1 = k)).isSome

/-- Deletion (`Map.prototype.delete`). -/
def mDelete {α : Type} (m : JsMap α) (k : String) : JsMap α :=
  List.filter (fun p => p.1 ≠ k) m

/-- Update/insert (`Map.prototype.set`): an existing key keeps its
position, a fresh key is appended at the end. -/
def mSet {α : Type} (m : JsMap α) (k : String) (v : α) : JsMap α :=
  if mHas m k then m.map (fun p => if p.1 = k then (k, v) else p)
  else m ++ [(k, v)]

/-- Keys of the map in iteration (insertion) order. -/
def mKeys {α : Type} (m : JsMap α) : List String :=
  m.map Prod.fst

/-- Cache entry stored by `LRUCache`: a value together with its absolute
expiry time (0 meaning no expiry). -/
structure CacheEntry (α : Type) where
  value : α
  expires : Int
deriving Repr, DecidableEq

/-- The `LRUCache` class: a bounded store over a JS `Map` (this
repository constructs it without a `ttlFn`, so the per-call `ttl`
argument alone decides the expiry). -/
structure LRUCache (α : Type) where
  limit : Nat
  cache : JsMap (CacheEntry α)

/-- `LRUCache.get`: absent key gives `null`; a lazily-detected expired
entry is deleted and gives `null`; a hit deletes and re-inserts the
entry (refreshing its LRU position) and returns the value. -/
def lruGet {α : Type} (c : LRUCache α) (k : String) (now : Int) :
    Option α × LRUCache α :=
  match mGet c.cache k with
  | none => (none, c)
  | some item =>
      if item.expires ≠ 0 ∧ item.expires < now then
        (none, { c with cache := mDelete c.cache k })
      else
        (some item.value, { c with cache := mSet (mDelete c.cache k) k item })

/-- Absolute expiry computed by `LRUCache.set`: `Date.now() + ttl` when
`ttl > 0`, else 0 (this repository constructs its caches without a
`ttlFn`, so the `ttlFn` branch is dead). -/
def expiresOf (ttl now : Int) : Int :=
  if 0 < ttl then now + ttl else 0

/-- `LRUCache.set`: delete an existing key first; otherwise, at capacity,
evict the oldest (first-iterated) key; then insert the new entry. -/
def lruSet {α : Type} (c : LRUCache α) (k : String) (v : α) (ttl : Int) (now : Int) :
    LRUCache α :=
  let m :=
    if mHas c.cache k then mDelete c.cache k
    else if c.limit ≤ c.cache.length then
      match mKeys c.cache with
      | oldestKey :: _ => mDelete c.cache oldestKey
      | [] => c.cache
    else c.cache
  { c with cache := mSet m k { value := v, expires := expiresOf ttl now } }

/-- `LRUCache.clear`. -/
def lruClear {α : Type} (c : LRUCache α) : LRUCache α :=
  { c with cache := [] }

/-- `LRUCache.pruneExpired`: drop every entry whose nonzero expiry has
passed. -/
def lruPruneExpired {α : Type} (c : LRUCache α) (now : Int) : LRUCache α :=
  { c with cache := c.cache.filter (fun p => !(decide (p.2.expires ≠ 0 ∧ p.2.expires < now))) }

/-- Folding `LRUCache.set` over a list of keys, all with one value and
TTL (the repeated-insertion scenario of the spec's testable property). -/
def insertAll {α : Type} (c : LRUCache α) (keys : List String) (v : α)
    (ttl now : Int) : LRUCache α :=
  keys.foldl (fun acc k => lruSet acc k v ttl now) c

/-- Freshly constructed `LRUCache` of a given capacity. -/
def lruEmpty (α : Type) (limit : Nat) : LRUCache α :=
  { limit := limit, cache := [] }

theorem mHas_true_iff {α : Type} {m : JsMap α} {k : String} :
    mHas m k = true ↔ k ∈ mKeys m := by
  unfold mHas mKeys
  rw [List.find?_isSome]
  simp only [List.mem_map, decide_eq_true_eq]

theorem mHas_false_iff {α : Type} {m : JsMap α} {k : String} :
    mHas m k = false ↔ k ∉ mKeys m := by
  rw [← Bool.not_eq_true, not_iff_not]
  exact mHas_true_iff

theorem mKeys_mDelete {α : Type} (m : JsMap α) (k : String) :
    mKeys (mDelete m k) = (mKeys m).filter (fun j => j ≠ k) := by
  induction m with
  | nil => rfl
  | cons p rest ih =>
      by_cases h : p.1 = k <;> simp [mDelete, mKeys, h] at ih ⊢ <;>
        simpa [mDelete, mKeys] using ih

theorem mDelete_head {α : Type} {p : String × α} {rest : JsMap α}
    (h : p.1 ∉ mKeys rest) : mDelete (p :: rest) p.1 = rest := by
  simp only [mDelete, List.filter_cons]
  have : ¬(p.1 ≠ p.1) := by simp
  simp only [decide_eq_true_eq] at *
  rw [if_neg this]
  apply List.filter_eq_self.mpr
  intro q hq
  simp only [decide_eq_true_eq]
  intro hqk
  exact h (hqk ▸ List.mem_map_of_mem Prod.fst hq)

theorem length_mDelete {α : Type} {m : JsMap α} {k : String}
    (hnd : (mKeys m).Nodup) (hin : mHas m k = true) :
    (mDelete m k).length + 1 = m.length := by
  induction m with
  | nil => simp [mHas] at hin
  | cons p rest ih =>
      simp only [mKeys, List.map_cons, List.nodup_cons] at hnd
      by_cases h : p.1 = k
      · have : mDelete (p :: rest) p.1 = rest := mDelete_head (by simpa [mKeys] using hnd.1)
        rw [← h] at *
        simp [this]
      · have hin' : mHas rest k = true := by
          rcases mHas_true_iff.mp hin with hmem
          simp only [mKeys, List.map_cons, List.mem_cons] at hmem
          rcases hmem with h1 | h2
          · exact absurd h1.symm h
          · exact mHas_true_iff.mpr h2
        have := ih hnd.2 hin'
        simp only [mDelete, List.filter_cons] at *
        have hne : (decide (p.1 ≠ k)) = true := by simpa using h
        rw [hne]
        simpa using this

theorem mSet_fresh {α : Type} {m : JsMap α} {k : String} (v : α)
    (h : mHas m k = false) : mSet m k v = m ++ [(k, v)] := by
  simp [mSet, h]

theorem lruSet_fresh_below {α : Type} {c : LRUCache α} {k : String}
    (v : α) (ttl now : Int)
    (hfresh : mHas c.cache k = false) (hlt : c.cache.length < c.limit) :
    (lruSet c k v ttl now).cache =
      c.cache ++ [(k, { value := v, expires := expiresOf ttl now })] := by
  simp only [lruSet, hfresh, Bool.false_eq_true, if_false, if_neg (by omega : ¬ c.limit ≤ c.cache.length)]
  exact mSet_fresh _ hfresh

theorem lruSet_fresh_at_cap {α : Type} {c : LRUCache α} {k : String}
    (v : α) (ttl now : Int) {p : String × CacheEntry α} {rest : JsMap (CacheEntry α)}
    (hfresh : mHas c.cache k = false) (hge : c.limit ≤ c.cache.length)
    (hnd : (mKeys c.cache).Nodup) (hcons : c.cache = p :: rest) :
    (lruSet c k v ttl now).cache =
      rest ++ [(k, { value := v, expires := expiresOf ttl now })] := by
  have hnd' : p.1 ∉ mKeys rest := by
    rw [hcons] at hnd
    simp only [mKeys, List.map_cons, List.nodup_cons] at hnd
    simpa [mKeys] using hnd.1
  have hdel : mDelete c.cache p.1 = rest := by
    rw [hcons]
    exact mDelete_head hnd'
  have hkeys : mKeys c.cache = p.1 :: mKeys rest := by
    rw [hcons]; rfl
  have hfresh' : mHas rest k = false := by
    rw [mHas_false_iff] at hfresh ⊢
    intro hmem
    exact hfresh (by rw [hkeys]; exact List.mem_cons_of_mem _ hmem)
  simp only [lruSet, hfresh, Bool.false_eq_true, if_false, if_pos hge, hkeys, hdel]
  exact mSet_fresh _ hfresh'

theorem lruSet_existing {α : Type} {c : LRUCache α} {k : String}
    (v : α) (ttl now : Int) (hheld : mHas c.cache k = true) :
    (lruSet c k v ttl now).cache =
      mDelete c.cache k ++ [(k, { value := v, expires := expiresOf ttl now })] := by
  have hfresh : mHas (mDelete c.cache k) k = false := by
    rw [mHas_false_iff, mKeys_mDelete]
    simp
  simp only [lruSet, hheld, if_true]
  exact mSet_fresh _ hfresh

theorem lruSet_limit {α : Type} (c : LRUCache α) (k : String) (v : α) (ttl now : Int) :
    (lruSet c k v ttl now).limit = c.limit := rfl

theorem insertAll_fill {α : Type} (v : α) (ttl now : Int) :
    ∀ (keys : List String) (c : LRUCache α),
      keys.Nodup → (∀ j ∈ keys, mHas c.cache j = false) →
      c.cache.length + keys.length ≤ c.limit →
      (insertAll c keys v ttl now).cache =
        c.cache ++ keys.map (fun j => (j, { value := v, expires := expiresOf ttl now }))
        ∧ (insertAll c keys v ttl now).limit = c.limit := by
  intro keys
  induction keys with
  | nil => intro c _ _ _; simp [insertAll]
  | cons k ks ih =>
      intro c hnd hfresh hlen
      have hk : mHas c.cache k = false := hfresh k (List.mem_cons_self k ks)
      have hlt : c.cache.length < c.limit := by
        simp only [List.length_cons] at hlen; omega
      have hstep := lruSet_fresh_below (c := c) (k := k) v ttl now hk hlt
      have hnd' : ks.Nodup := (List.nodup_cons.mp hnd).2
      have hknot : k ∉ ks := (List.nodup_cons.mp hnd).1
      have hfresh' : ∀ j ∈ ks, mHas (lruSet c k v ttl now).cache j = false := by
        intro j hj
        rw [mHas_false_iff, hstep]
        simp only [mKeys, List.map_append, List.mem_append, List.map_cons, List.map_nil,
          List.mem_singleton, List.mem_cons]
        rintro (hmem | hone)
        · exact mHas_false_iff.mp (hfresh j (List.mem_cons_of_mem _ hj)) hmem
        · simp only [List.not_mem_nil, or_false] at hone
          exact hknot (hone ▸ hj)
      have hlen' : (lruSet c k v ttl now).cache.length + ks.length ≤ (lruSet c k v ttl now).limit := by
        rw [hstep, lruSet_limit]
        simp only [List.length_append, List.length_singleton]
        simp only [List.length_cons] at hlen
        omega
      have hrec := ih (lruSet c k v ttl now) hnd' hfresh' hlen'
      have hfold : insertAll c (k :: ks) v ttl now = insertAll (lruSet c k v ttl now) ks v ttl now := rfl
      rw [hfold]
      constructor
      · rw [hrec.1, hstep]
        simp
      · rw [hrec.2, lruSet_limit]

theorem insertAll_overflow {α : Type} (v : α) (ttl now : Int) (limit : Nat)
    (hpos : 0 < limit) (keys : List String) (hnd : keys.Nodup)
    (hlen : keys.length = limit + 1) :
    mKeys (insertAll (lruEmpty α limit) keys v ttl now).cache = keys.tail
      ∧ (insertAll (lruEmpty α limit) keys v ttl now).cache.length = limit := by
  have hsplit : keys = keys.take limit ++ keys.drop limit := (List.take_append_drop _ _).symm
  have hlentake : (keys.take limit).length = limit := by
    rw [List.length_take]; omega
  have hlendrop : (keys.drop limit).length = 1 := by
    rw [List.length_drop]; omega
  obtain ⟨klast, hdrop⟩ : ∃ klast, keys.drop limit = [klast] := by
    cases hd : keys.drop limit with
    | nil => rw [hd] at hlendrop; simp at hlendrop
    | cons a t =>
        rw [hd] at hlendrop
        simp only [List.length_cons] at hlendrop
        have : t = [] := List.length_eq_zero.mp (by omega)
        exact ⟨a, by rw [this]⟩
  have hndsplit : (keys.take limit ++ [klast]).Nodup := by
    rw [← hdrop, ← hsplit]; exact hnd
  have hndtake : (keys.take limit).Nodup := (List.nodup_append.mp hndsplit).1
  have hlastfresh : klast ∉ keys.take limit := by
    intro hmem
    exact (List.nodup_append.mp hndsplit).2.2 hmem (List.mem_singleton_self _)
  have hkeyid : ∀ (l : List String),
      mKeys (l.map (fun j => (j, ({ value := v, expires := expiresOf ttl now } : CacheEntry α)))) = l := by
    intro l
    induction l with
    | nil => rfl
    | cons a t iht =>
        simp only [mKeys, List.map_map, List.map_cons] at iht ⊢
        simpa using congrArg (List.cons a) iht
  have hfill := insertAll_fill v ttl now (keys.take limit) (lruEmpty α limit) hndtake
    (by intro j _; rfl) (by simp [lruEmpty, hlentake])
  set c1 := insertAll (lruEmpty α limit) (keys.take limit) v ttl now with hc1
  have hc1cache : c1.cache =
      (keys.take limit).map (fun j => (j, { value := v, expires := expiresOf ttl now })) := by
    have := hfill.1
    simpa [lruEmpty] using this
  have hc1limit : c1.limit = limit := by
    have := hfill.2
    simpa [lruEmpty] using this
  have hc1keys : mKeys c1.cache = keys.take limit := by
    rw [hc1cache]
    exact hkeyid _
  have hc1len : c1.cache.length = limit := by
    rw [hc1cache, List.length_map, hlentake]
  have hwhole : insertAll (lruEmpty α limit) keys v ttl now = lruSet c1 klast v ttl now := by
    rw [hsplit, hdrop]
    simp only [insertAll, List.foldl_append, List.foldl_cons, List.foldl_nil]
    rfl
  obtain ⟨khead, ktail, htk⟩ : ∃ kh kt, keys.take limit = kh :: kt := by
    cases ht : keys.take limit with
    | nil => rw [ht] at hlentake; simp at hlentake; omega
    | cons a t => exact ⟨a, t, rfl⟩
  have hc1cons : c1.cache =
      (khead, ({ value := v, expires := expiresOf ttl now } : CacheEntry α)) ::
        ktail.map (fun j => (j, { value := v, expires := expiresOf ttl now })) := by
    rw [hc1cache, htk]; rfl
  have hfreshlast : mHas c1.cache klast = false := by
    rw [mHas_false_iff, hc1keys]
    exact hlastfresh
  have hcap : c1.limit ≤ c1.cache.length := by rw [hc1limit, hc1len]
  have hndc1 : (mKeys c1.cache).Nodup := by rw [hc1keys]; exact hndtake
  have hstep := lruSet_fresh_at_cap (c := c1) (k := klast) v ttl now hfreshlast hcap hndc1 hc1cons
  rw [hwhole]
  constructor
  · rw [hstep]
    simp only [mKeys, List.map_append, List.map_map, List.map_cons, List.map_nil]
    have htail : keys.tail = ktail ++ [klast] := by
      have : keys = (khead :: ktail) ++ [klast] := by
        rw [hsplit, hdrop, htk]
      rw [this]
      rfl
    rw [htail]
    have := hkeyid ktail
    simp only [mKeys, List.map_map] at this
    rw [this]
  · rw [hstep]
    simp only [List.length_append, List.length_map, List.length_singleton]
    have : ktail.length + 1 = limit := by
      have := hlentake
      rw [htk] at this
      simpa using this
    omega

/-- C2: on a cache at capacity, `set` with a new key evicts exactly the
earliest-inserted currently-held entry before inserting; `set` with an
already-present key evicts nothing and preserves the key set and size;
and inserting capacity+1 distinct keys into a fresh cache leaves exactly
`capacity` entries with the first-inserted key missing and the rest
present. -/
theorem lru_eviction_policy {α : Type} (c : LRUCache α) (knew kheld : String)
    (v : α) (ttl now : Int)
    (hnd : (mKeys c.cache).Nodup)
    (hcap : c.cache.length = c.limit)
    (hpos : 0 < c.limit)
    (hfresh : mHas c.cache knew = false)
    (hheld : mHas c.cache kheld = true) :
    (∃ first rest, c.cache = first :: rest ∧
        (lruSet c knew v ttl now).cache =
          rest ++ [(knew, { value := v, expires := expiresOf ttl now })]
        ∧ (lruSet c knew v ttl now).cache.length = c.limit)
    ∧ ((lruSet c kheld v ttl now).cache.length = c.limit
        ∧ ∀ j, mHas (lruSet c kheld v ttl now).cache j = mHas c.cache j)
    ∧ (∀ (keys : List String) (v0 : α), keys.Nodup → keys.length = c.limit + 1 →
        (insertAll (lruEmpty α c.limit) keys v0 ttl now).cache.length = c.limit
        ∧ (∀ h0 ∈ keys.head?, mHas (insertAll (lruEmpty α c.limit) keys v0 ttl now).cache h0 = false)
        ∧ ∀ j ∈ keys.tail, mHas (insertAll (lruEmpty α c.limit) keys v0 ttl now).cache j = true) := by
  refine ⟨?_, ⟨?_, ?_⟩, ?_⟩
  · obtain ⟨first, rest, hcons⟩ : ∃ p r, c.cache = p :: r := by
      cases hc : c.cache with
      | nil => rw [hc] at hcap; simp at hcap; omega
      | cons p r => exact ⟨p, r, rfl⟩
    refine ⟨first, rest, hcons, ?_, ?_⟩
    · exact lruSet_fresh_at_cap v ttl now hfresh (by omega) hnd hcons
    · rw [lruSet_fresh_at_cap v ttl now hfresh (by omega) hnd hcons]
      have : c.cache.length = rest.length + 1 := by rw [hcons]; rfl
      simp only [List.length_append, List.length_singleton]
      omega
  · rw [lruSet_existing v ttl now hheld]
    have := length_mDelete hnd hheld
    simp only [List.length_append, List.length_singleton]
    omega
  · intro j
    have hkeys : mKeys (lruSet c kheld v ttl now).cache =
        mKeys (mDelete c.cache kheld) ++ [kheld] := by
      rw [lruSet_existing v ttl now hheld]
      simp [mKeys]
    by_cases hj : j = kheld
    · subst hj
      rw [hheld, mHas_true_iff, hkeys]
      simp
    · have hiff : mHas (lruSet c kheld v ttl now).cache j = true ↔ mHas c.cache j = true := by
        rw [mHas_true_iff, mHas_true_iff, hkeys, mKeys_mDelete]
        simp [List.mem_filter, hj]
      cases hA : mHas (lruSet c kheld v ttl now).cache j <;>
        cases hB : mHas c.cache j <;> simp_all
  · intro keys v0 hnd0 hlen0
    have hov := insertAll_overflow v0 ttl now c.limit hpos keys hnd0 hlen0
    refine ⟨hov.2, ?_, ?_⟩
    · intro h0 hh0
      obtain ⟨t, ht⟩ : ∃ t, keys = h0 :: t := by
        cases hk : keys with
        | nil => rw [hk] at hh0; simp at hh0
        | cons a t =>
            rw [hk] at hh0
            simp only [List.head?_cons, Option.mem_def, Option.some.injEq] at hh0
            exact ⟨t, by rw [hh0]⟩
      rw [mHas_false_iff, hov.1, ht]
      have := (List.nodup_cons.mp (ht ▸ hnd0)).1
      simpa using this
    · intro j hj
      rw [mHas_true_iff, hov.1]
      exact hj

/-- Witness for C2 at a concrete two-entry cache of capacity 2. -/
theorem lru_eviction_policy_witness :
    (lruSet (⟨2, [("a", ⟨1, 0⟩), ("b", ⟨2, 0⟩)]⟩ : LRUCache Nat) "c" 9 5 100).cache.length = 2 := by
  have h := lru_eviction_policy (⟨2, [("a", ⟨1, 0⟩), ("b", ⟨2, 0⟩)]⟩ : LRUCache Nat)
    "c" "b" 9 5 100 (by decide) (by decide) (by decide) (by decide) (by decide)
  obtain ⟨⟨first, rest, hcons, hset, hlen⟩, _, _⟩ := h
  exact hlen

/-- JS `String.prototype.toLowerCase`, modelled characterwise by
`Char.toLower` (ASCII; the claims proved below do not depend on the
locale behaviour of non-ASCII case folding). -/
def jsToLower (s : String) : String :=
  String.mk (s.data.map Char.toLower)

/-- Characterwise `String.prototype.startsWith`. -/
def jsStartsWith (s p : String) : Bool :=
  p.data.isPrefixOf s.data

/-- Characterwise prefix drop. -/
def jsDrop (s : String) (n : Nat) : String :=
  String.mk (s.data.drop n)

/-- Trailing-slash strip of the link normalizer: the replacement of
`/\/$/` by the empty string. -/
def stripTrailingSlash (s : String) : String :=
  if s.data.getLast? = some '/' then String.mk s.data.dropLast else s

/-- Optional `www.` strip, applied only after a protocol matched. -/
def stripWwwPart (s : String) : String :=
  if jsStartsWith s "www." then jsDrop s 4 else s

/-- Protocol strip of the link normalizer: the replacement of
`/^https?:\/\/(www\.)?/` by the empty string. -/
def stripProtoWww (s : String) : String :=
  if jsStartsWith s "https://" then stripWwwPart (jsDrop s 8)
  else if jsStartsWith s "http://" then stripWwwPart (jsDrop s 7)
  else s

/-- Normalized link key of `SearchService.search`: lower-case, protocol
and optional `www.` stripped, trailing slash stripped. -/
def cleanLink (link : String) : String :=
  stripTrailingSlash (stripProtoWww (jsToLower link))

/-- Character class kept by the title normalizer: the regex
`[^\p{L}\p{N}\s]` is deleted, i.e. letters, digits and whitespace are
kept (Unicode classes modelled by `Char.isAlphanum`/`Char.isWhitespace`;
the claims proved below do not depend on the exact class). -/
def keepTitleChar (c : Char) : Bool :=
  c.isAlphanum || c.isWhitespace

/-- Normalized title key of `SearchService.search`: lower-case,
punctuation stripped, whitespace collapsed and trimmed. -/
def normTitle (t : String) : String :=
  jsTrim (String.mk (collapseWs ((jsToLower t).data.filter keepTitleChar)))

/-- Loop body of the deduplication pass of `SearchService.search`: keep
an article unless its nonempty normalized link or nonempty normalized
title was already seen; record the nonempty keys of kept articles. -/
def dedupGo : List Article → List String → List String → List Article
  | [], _, _ => []
  | a :: rest, seenLinks, seenTitles =>
      if (cleanLink a.link ≠ "" ∧ cleanLink a.link ∈ seenLinks)
          ∨ (normTitle a.title ≠ "" ∧ normTitle a.title ∈ seenTitles) then
        dedupGo rest seenLinks seenTitles
      else
        a :: dedupGo rest
          (if cleanLink a.link = "" then seenLinks else cleanLink a.link :: seenLinks)
          (if normTitle a.title = "" then seenTitles else normTitle a.title :: seenTitles)

/-- The cross-source deduplicator: the loop run with empty seen-sets. -/
def dedup (l : List Article) : List Article :=
  dedupGo l [] []

theorem dedupGo_idem : ∀ (l : List Article) (sl st : List String),
    dedupGo (dedupGo l sl st) sl st = dedupGo l sl st := by
  intro l
  induction l with
  | nil => intro sl st; rfl
  | cons a rest ih =>
      intro sl st
      by_cases hc : (cleanLink a.link ≠ "" ∧ cleanLink a.link ∈ sl)
          ∨ (normTitle a.title ≠ "" ∧ normTitle a.title ∈ st)
      · rw [dedupGo, if_pos hc]
        exact ih sl st
      · rw [dedupGo, if_neg hc, dedupGo, if_neg hc]
        rw [ih]

/-- C8: the deduplicator is idempotent — a second pass over its own
output removes nothing — and two articles whose normalized link and
title keys are both empty are never matched against each other (both
are retained). -/
theorem dedup_idempotent (l : List Article) (a b : Article)
    (hal : cleanLink a.link = "") (hat : normTitle a.title = "")
    (hbl : cleanLink b.link = "") (hbt : normTitle b.title = "") :
    dedup (dedup l) = dedup l ∧ dedup [a, b] = [a, b] := by
  constructor
  · exact dedupGo_idem l [] []
  · simp [dedup, dedupGo, hal, hat, hbl, hbt]

/-- Minimal article with empty link and title used in witnesses. -/
def blankArticleA : Article :=
  { id := "a1", source := "bbc", sourceTitle := "BBC News", title := "",
    snippet := "(No Description)", link := "", imageUrl := none,
    fullText := "", publishedAt := none, publishedAtMs := 0 }

/-- Second minimal article with empty link and title used in witnesses. -/
def blankArticleB : Article :=
  { id := "b2", source := "cnn", sourceTitle := "CNN", title := "",
    snippet := "(No Description)", link := "", imageUrl := none,
    fullText := "", publishedAt := none, publishedAtMs := 5 }

/-- Witness for C8: both blank-keyed articles are retained through the
deduplicator. -/
theorem dedup_idempotent_witness :
    dedup [blankArticleA, blankArticleB] = [blankArticleA, blankArticleB] :=
  (dedup_idempotent [] blankArticleA blankArticleB (by decide) (by decide)
    (by decide) (by decide)).2

/-- Substring test on character lists: does the needle occur anywhere in
the haystack?  This is what an escaped-literal regex `test` performs. -/
def listInfixTest (needle : List Char) : List Char → Bool
  | [] => needle.isEmpty
  | c :: rest => needle.isPrefixOf (c :: rest) || listInfixTest needle rest

/-- Regex test of `SearchService._score`: each token is regex-escaped and
compiled case-insensitively, so on the already-lowercased token and a
lowercased haystack it is a literal substring test. -/
def reTest (token s : String) : Bool :=
  listInfixTest token.data s.data

/-- The `SearchService._score` method: each token adds 5 on a title hit,
else 2 on a snippet hit (title and snippet lowercased first). -/
def searchScore (article : Article) (tokens : List String) : Nat :=
  tokens.foldl (fun score t =>
    if reTest t (jsToLower article.title) then score + 5
    else if reTest t (jsToLower article.snippet) then score + 2
    else score) 0

/-- Comparator of the ranking sort of `SearchService.search`, as the
should-come-before-or-equal relation of `(a, b) => b.score - a.score ||
b.article.publishedAtMs - a.article.publishedAtMs`. -/
def rankKeyLe (p q : Article × Nat) : Bool :=
  decide (q.2 < p.2) || (p.2 == q.2 && decide (q.1.publishedAtMs ≤ p.1.publishedAtMs))

/-- Ranking pipeline of `SearchService.search` for a nonempty token set:
score every article, drop zero scores, sort by descending score with
descending `publishedAtMs` as tie-break, return the articles. -/
def rankArticles (arts : List Article) (tokens : List String) : List Article :=
  ((((arts.map (fun a => (a, searchScore a tokens))).filter
      (fun p => 0 < p.2)).mergeSort rankKeyLe).map Prod.fst)

theorem rankKeyLe_trans (p q r : Article × Nat) :
    rankKeyLe p q → rankKeyLe q r → rankKeyLe p r := by
  simp only [rankKeyLe, Bool.or_eq_true, Bool.and_eq_true, decide_eq_true_eq, beq_iff_eq]
  omega

theorem rankKeyLe_total (p q : Article × Nat) :
    rankKeyLe p q || rankKeyLe q p := by
  simp only [rankKeyLe, Bool.or_eq_true, Bool.and_eq_true, decide_eq_true_eq, beq_iff_eq]
  omega

/-- C5: a title hit outscores a snippet-only hit on the same single
token; zero-scoring articles are excluded from the ranked results; and
the ranked results are pairwise ordered by descending score with ties
broken by descending `publishedAtMs`. -/
theorem scorer_ranking (t : String) (a b : Article) (arts : List Article)
    (tokens : List String)
    (hA : reTest t (jsToLower a.title) = true)
    (hBt : reTest t (jsToLower b.title) = false)
    (hBs : reTest t (jsToLower b.snippet) = true) :
    searchScore b [t] < searchScore a [t]
    ∧ (∀ x ∈ arts, searchScore x tokens = 0 → x ∉ rankArticles arts tokens)
    ∧ List.Pairwise (fun x y => searchScore y tokens < searchScore x tokens ∨
        (searchScore x tokens = searchScore y tokens ∧ y.publishedAtMs ≤ x.publishedAtMs))
        (rankArticles arts tokens) := by
  refine ⟨?_, ?_, ?_⟩
  · simp [searchScore, hA, hBt, hBs]
  · intro x hx hscore hmem
    simp only [rankArticles, List.mem_map] at hmem
    obtain ⟨p, hp, hpx⟩ := hmem
    rw [List.mem_mergeSort] at hp
    rw [List.mem_filter] at hp
    obtain ⟨hpmem, hppos⟩ := hp
    simp only [List.mem_map] at hpmem
    obtain ⟨a0, _, hpa⟩ := hpmem
    have : p.2 = searchScore x tokens := by
      rw [← hpa] at hpx ⊢
      simp only at hpx ⊢
      rw [hpx]
    rw [this, hscore] at hppos
    simp at hppos
  · have hsorted : (((arts.map (fun a => (a, searchScore a tokens))).filter
        (fun p => 0 < p.2)).mergeSort rankKeyLe).Pairwise (fun p q => rankKeyLe p q) :=
      List.sorted_mergeSort rankKeyLe_trans rankKeyLe_total _
    have hscored : ∀ p ∈ ((arts.map (fun a => (a, searchScore a tokens))).filter
        (fun p => 0 < p.2)).mergeSort rankKeyLe, p.2 = searchScore p.1 tokens := by
      intro p hp
      rw [List.mem_mergeSort, List.mem_filter] at hp
      obtain ⟨hpmem, _⟩ := hp
      simp only [List.mem_map] at hpmem
      obtain ⟨a0, _, hpa⟩ := hpmem
      rw [← hpa]
    have hpair : (((arts.map (fun a => (a, searchScore a tokens))).filter
        (fun p => 0 < p.2)).mergeSort rankKeyLe).Pairwise
        (fun p q => searchScore q.1 tokens < searchScore p.1 tokens ∨
          (searchScore p.1 tokens = searchScore q.1 tokens ∧
            q.1.publishedAtMs ≤ p.1.publishedAtMs)) := by
      refine List.Pairwise.imp_of_mem ?_ hsorted
      intro p q hp hq hle
      have h2p := hscored p hp
      have h2q := hscored q hq
      simp only [rankKeyLe, Bool.or_eq_true, Bool.and_eq_true, decide_eq_true_eq,
        beq_iff_eq] at hle
      rw [h2p, h2q] at hle
      omega
    rw [rankArticles, List.pairwise_map]
    exact hpair

/-- Concrete article whose title matches the token `moscow`. -/
def articleElections : Article :=
  { id := "e1", source := "bbc", sourceTitle := "BBC News",
    title := "Elections in Moscow", snippet := "(No Description)", link := "",
    imageUrl := none, fullText := "", publishedAt := none, publishedAtMs := 0 }

/-- Concrete article matching the token `moscow` only in its snippet. -/
def articleWeather : Article :=
  { id := "w1", source := "cnn", sourceTitle := "CNN",
    title := "Weather", snippet := "Moscow election results", link := "",
    imageUrl := none, fullText := "", publishedAt := none, publishedAtMs := 0 }

/-- Witness for C5 at the spec's own example articles and token. -/
theorem scorer_ranking_witness :
    searchScore articleWeather ["moscow"] < searchScore articleElections ["moscow"] :=
  (scorer_ranking "moscow" articleElections articleWeather [] []
    (by decide) (by decide) (by decide)).1

/-- Feed item carrying only a title, as in the spec's minimal-item
testable property. -/
def onlyTitleItem (t : JVal) : Item :=
  { title := some t }

/-- C6: normalizing an item that carries only a title (the normalizer is
a total function, so it never throws) yields the `(No Description)`
snippet sentinel, a null `publishedAt`, `publishedAtMs = 0`, and the
non-empty synthetic id `source-0-index`. -/
theorem normalizer_minimal_item (env : JsDateEnv) (ft : String → Option String)
    (sourceKey : String) (index : Nat) (t : JVal) :
    (normalizeItem env ft sourceKey (onlyTitleItem t) index).snippet = "(No Description)"
    ∧ (normalizeItem env ft sourceKey (onlyTitleItem t) index).publishedAt = none
    ∧ (normalizeItem env ft sourceKey (onlyTitleItem t) index).publishedAtMs = 0
    ∧ (normalizeItem env ft sourceKey (onlyTitleItem t) index).id =
        sourceKey ++ "-" ++ "0" ++ "-" ++ toString index
    ∧ (normalizeItem env ft sourceKey (onlyTitleItem t) index).id ≠ "" := by
  refine ⟨rfl, rfl, rfl, rfl, ?_⟩
  have hid : (normalizeItem env ft sourceKey (onlyTitleItem t) index).id =
      sourceKey ++ "-" ++ "0" ++ "-" ++ toString index := rfl
  rw [hid]
  intro h
  have hlen := congrArg String.length h
  simp only [String.length_append] at hlen
  have h1 : String.length "-" = 1 := rfl
  have h0 : String.length "0" = 1 := rfl
  have he : String.length "" = 0 := rfl
  rw [h1, h0, he] at hlen
  omega

theorem stripTagsGo_no_lt (l : List Char) (h : ∀ c ∈ l, c ≠ '<') :
    stripTagsGo l none = l := by
  induction l with
  | nil => rfl
  | cons c rest ih =>
      have hc : c ≠ '<' := h c (List.mem_cons_self _ _)
      rw [stripTagsGo, if_neg hc]
      rw [ih (fun d hd => h d (List.mem_cons_of_mem _ hd))]

theorem collapseWs_no_ws (l : List Char) (h : ∀ c ∈ l, c.isWhitespace = false) :
    collapseWs l = l := by
  induction l with
  | nil => rfl
  | cons c rest ih =>
      cases rest with
      | nil =>
          have hc : c.isWhitespace = false := h c (List.mem_cons_self _ _)
          simp [collapseWs, hc]
      | cons c2 rest2 =>
          have hc : c.isWhitespace = false := h c (List.mem_cons_self _ _)
          rw [collapseWs, if_neg (by simp [hc])]
          rw [ih (fun d hd => h d (List.mem_cons_of_mem _ hd))]

theorem jsTrim_no_ws (l : List Char) (h : ∀ c ∈ l, c.isWhitespace = false) :
    jsTrim (String.mk l) = String.mk l := by
  have hdrop : ∀ (m : List Char), (∀ c ∈ m, c.isWhitespace = false) →
      m.dropWhile Char.isWhitespace = m := by
    intro m hm
    cases m with
    | nil => rfl
    | cons c rest =>
        rw [List.dropWhile_cons, if_neg (by simp [hm c (List.mem_cons_self _ _)])]
  unfold jsTrim
  rw [hdrop l h, hdrop l.reverse (fun c hc => h c (List.mem_reverse.mp hc)), List.reverse_reverse]

theorem stripHtml_plain (l : List Char)
    (hlt : ∀ c ∈ l, c ≠ '<') (hws : ∀ c ∈ l, c.isWhitespace = false) :
    stripHtml (String.mk l) = String.mk l := by
  unfold stripHtml stripTags
  have hdata : (String.mk l).data = l := rfl
  rw [hdata, stripTagsGo_no_lt l hlt, collapseWs_no_ws l hws, jsTrim_no_ws l hws]

/-- String of `n` letters `a`, used in the full-text cap analysis. -/
def aString (n : Nat) : String :=
  String.mk (List.replicate n 'a')

theorem stripHtml_aString (n : Nat) : stripHtml (aString n) = aString n := by
  unfold aString
  refine stripHtml_plain _ ?_ ?_ <;>
    intro c hc <;> rw [List.eq_of_mem_replicate hc] <;> decide

theorem aString_length (n : Nat) : (aString n).length = n := by
  show (List.replicate n 'a').length = n
  exact List.length_replicate _ _

theorem aString_ne_empty (n : Nat) (h : 0 < n) : aString n ≠ "" := by
  intro he
  have hl := congrArg String.length he
  rw [aString_length] at hl
  rw [hl] at h
  exact absurd h (by decide)

/-- Extracted description of `_normalizeItem` (the snippet source before
the sentinel default). -/
def descOf (item : Item) : String :=
  stripHtml (jsOrS (jsOrS (jsOrS (getText item.description) (getText item.summary))
    (getText item.mediaDescription)) (getText item.contentEncoded))

/-- Capped cleaned full text of `_normalizeItem`:
`stripHtml(rawFull).substring(0, 4000)`. -/
def cleanFullOf (item : Item) : String :=
  jsTake (stripHtml (jsOrS (jsOrS (getText item.contentEncoded) (descOf item)) "")) 4000

theorem normalizeItem_fullText (env : JsDateEnv) (ft : String → Option String)
    (sourceKey : String) (item : Item) (index : Nat) :
    (normalizeItem env ft sourceKey item index).fullText =
      if 3 < (cleanFullOf item).length then cleanFullOf item else descOf item := by
  simp only [normalizeItem, cleanFullOf, descOf]

/-- Feed item whose only populated field is a 4001-character
`content:encoded` body. -/
def longContentItem : Item :=
  { contentEncoded := some (.vstr (aString 4001)) }

/-- Date environment with no parsable dates, for concrete runs. -/
def trivialEnv : JsDateEnv :=
  { parse := fun _ => none, iso := fun _ => "" }

theorem getText_long : getText longContentItem.contentEncoded = aString 4001 := by
  have hne : aString 4001 ≠ "" := aString_ne_empty 4001 (by omega)
  have hbeq : (aString 4001 == "") = false := beq_eq_false_iff_ne.mpr hne
  show getText (some (.vstr (aString 4001))) = aString 4001
  simp only [getText, jsTruthy, getTextV, hbeq, Bool.not_false, if_true]

theorem descOf_long : descOf longContentItem = aString 4001 := by
  show stripHtml (jsOrS (jsOrS (jsOrS (getText (none : Option JVal))
      (getText (none : Option JVal))) (getText (none : Option JVal)))
      (getText longContentItem.contentEncoded)) = aString 4001
  rw [getText_long]
  have h0 : getText (none : Option JVal) = "" := rfl
  rw [h0]
  have hchain : jsOrS (jsOrS (jsOrS "" "") "") (aString 4001) = aString 4001 := rfl
  rw [hchain]
  exact stripHtml_aString 4001

theorem cleanFullOf_long : cleanFullOf longContentItem = aString 4000 := by
  unfold cleanFullOf
  rw [getText_long, descOf_long]
  have hne : aString 4001 ≠ "" := aString_ne_empty 4001 (by omega)
  have hor : jsOrS (jsOrS (aString 4001) (aString 4001)) "" = aString 4001 := by
    simp only [jsOrS, if_neg hne]
  rw [hor, stripHtml_aString]
  show String.mk ((List.replicate 4001 'a').take 4000) = aString 4000
  rw [List.take_replicate]
  have hmin : min 4000 4001 = 4000 := by omega
  rw [hmin]
  rfl

/-- Counterexample to C7 as stated: a 4001-character plain-text body is
cut at 4000 characters but no truncation indicator is appended — the
produced `fullText` is the bare 4000-character prefix, not that prefix
with `…` appended. -/
theorem fulltext_no_indicator_cex :
    (normalizeItem trivialEnv (fun _ => none) "bbc" longContentItem 0).fullText =
      aString 4000
    ∧ (normalizeItem trivialEnv (fun _ => none) "bbc" longContentItem 0).fullText ≠
      aString 4000 ++ "…" := by
  have hfull : (normalizeItem trivialEnv (fun _ => none) "bbc" longContentItem 0).fullText =
      aString 4000 := by
    rw [normalizeItem_fullText, cleanFullOf_long,
      if_pos (show 3 < (aString 4000).length by rw [aString_length]; omega)]
  refine ⟨hfull, ?_⟩
  rw [hfull]
  intro he
  have hl := congrArg String.length he
  rw [String.length_append, aString_length] at hl
  have h1 : String.length "…" = 1 := rfl
  rw [h1] at hl
  omega

/-- C7 as the code has it: `fullText` is the HTML-stripped full-text
source (`content:encoded`, else the already-extracted description)
truncated to its first 4000 characters with no indicator appended, and
when that truncated text is 3 characters or fewer the extracted
description (the snippet source, before the sentinel default) is used
instead. -/
theorem fulltext_cap_and_fallback (env : JsDateEnv) (ft : String → Option String)
    (sourceKey : String) (item : Item) (index : Nat) :
    (3 < (cleanFullOf item).length →
        (normalizeItem env ft sourceKey item index).fullText = cleanFullOf item)
    ∧ ((cleanFullOf item).length ≤ 3 →
        (normalizeItem env ft sourceKey item index).fullText = descOf item)
    ∧ (cleanFullOf item).length ≤ 4000 := by
  refine ⟨?_, ?_, ?_⟩
  · intro h
    rw [normalizeItem_fullText, if_pos h]
  · intro h
    rw [normalizeItem_fullText, if_neg (by omega)]
  · show ((stripHtml (jsOrS (jsOrS (getText item.contentEncoded) (descOf item)) "")).data.take
      4000).length ≤ 4000
    rw [List.length_take]
    omega

/-- Witness for the amended C7: on the 4001-character item the cap
branch applies. -/
theorem fulltext_cap_and_fallback_witness :
    (normalizeItem trivialEnv (fun _ => none) "nyt" longContentItem 1).fullText =
      cleanFullOf longContentItem := by
  refine (fulltext_cap_and_fallback trivialEnv (fun _ => none) "nyt" longContentItem 1).1 ?_
  rw [cleanFullOf_long, aString_length]
  omega

/-- Witness for C6 at a concrete title-only item. -/
theorem normalizer_minimal_item_witness :
    (normalizeItem trivialEnv (fun _ => none) "bbc" (onlyTitleItem (.vstr "Hello")) 0).snippet
      = "(No Description)" :=
  (normalizer_minimal_item trivialEnv (fun _ => none) "bbc" 0 (.vstr "Hello")).1

/-- Queued translation task of `TranslationService.translate`. -/
structure TransTask where
  text : String
  targetLang : String
  cacheKey : String
deriving Repr, DecidableEq

/-- Mutable state of the `TranslationService`: its cache, its shared
FIFO queue, and the number of busy workers. -/
structure TransService where
  cache : LRUCache String
  queue : List TransTask
  activeWorkers : Nat

/-- What the synchronous part of `translate` hands back to the caller:
an immediately-resolved string, or a pending task that was pushed onto
the queue (only enqueued tasks ever reach the network). -/
inductive TranslateEntryResult where
  | immediate (result : String)
  | enqueued (task : TransTask)
deriving Repr, DecidableEq

/-- The 24-hour translation cache TTL in milliseconds. -/
def TRANSLATION_TTL : Int := 24 * 60 * 60 * 1000

/-- The synchronous prefix of `TranslationService.translate`: falsy text
resolves to the empty string at once; a truthy cached value resolves
immediately; otherwise a task is pushed on the queue. -/
def translateEntry (s : TransService) (text targetLang : String) (now : Int) :
    TranslateEntryResult × TransService :=
  if text = "" then (.immediate "", s)
  else
    let cacheKey := targetLang ++ "|" ++ text
    let res := lruGet s.cache cacheKey now
    match res.1 with
    | some v =>
        if v ≠ "" then (.immediate v, { s with cache := res.2 })
        else (.enqueued ⟨text, targetLang, cacheKey⟩,
          { s with cache := res.2, queue := s.queue ++ [⟨text, targetLang, cacheKey⟩] })
    | none =>
        (.enqueued ⟨text, targetLang, cacheKey⟩,
          { s with cache := res.2, queue := s.queue ++ [⟨text, targetLang, cacheKey⟩] })

/-- JSON value of the translation backend payload. -/
inductive JsonV where
  | jstr (s : String)
  | jarr (elems : List JsonV)
  | jnull
deriving Repr

/-- Outcome of one outbound translation call as observed by
`_performTranslation`: an HTTP response with a JSON body, a non-OK
status, or an abort by the timeout. -/
inductive Upstream where
  | ok (payload : JsonV)
  | httpError (status : Nat)
  | timedOut
deriving Repr

/-- JS string coercion used by `Array.prototype.join`: null and
undefined become the empty string, arrays join their elements with
commas. -/
def joinCoerce : JsonV → String
  | .jstr s => s
  | .jnull => ""
  | .jarr [] => ""
  | .jarr [x] => joinCoerce x
  | .jarr (x :: y :: rest) => joinCoerce x ++ "," ++ joinCoerce (.jarr (y :: rest))

/-- Mapping-and-join over the payload's first row:
`data[0].map(item => (Array.isArray(item) ? item[0] : '')).join('')`. -/
def payloadText : List JsonV → String
  | [] => ""
  | item :: rest =>
      (match item with
       | .jarr l =>
           match l.head? with
           | some v => joinCoerce v
           | none => ""
       | _ => "") ++ payloadText rest

/-- The `_performTranslation` method: a non-OK status or an abort
throws; a payload that is not an array whose first element is an array
throws `Invalid format`; otherwise the first row is joined. -/
def performTranslation (u : Upstream) : Except String String :=
  match u with
  | .httpError status => .error ("Status " ++ toString status)
  | .timedOut => .error "The user aborted a request."
  | .ok (.jarr (.jarr items :: _)) => .ok (payloadText items)
  | .ok _ => .error "Invalid format"

/-- Upstream outcomes on which `_performTranslation` throws: non-OK
status, timeout, or a malformed payload. -/
def upstreamFails : Upstream → Bool
  | .httpError _ => true
  | .timedOut => true
  | .ok (.jarr (.jarr _ :: _)) => false
  | .ok _ => true

/-- Worker step of `TranslationService.processQueue` for one task: on
success the result is cached under the task's key with the 24-hour TTL
and resolved; on any failure the task resolves to its original text
(the promise is never rejected — the model is a total function into
`String`). -/
def runTranslationTask (task : TransTask) (u : Upstream)
    (cache : LRUCache String) (now : Int) : String × LRUCache String :=
  match performTranslation u with
  | .ok result => (result, lruSet cache task.cacheKey result TRANSLATION_TTL now)
  | .error _ => (task.text, cache)

/-- C3: `translate` never rejects — the worker resolution is a total
function into `String` — and on every failing upstream outcome (non-OK
HTTP status, timeout, malformed payload) the task resolves to exactly
the original input text. -/
theorem translate_failure_returns_input (text targetLang : String) (u : Upstream)
    (cache : LRUCache String) (now : Int)
    (hfail : upstreamFails u = true) :
    (runTranslationTask ⟨text, targetLang, targetLang ++ "|" ++ text⟩ u cache now).1 = text := by
  cases u with
  | httpError status => rfl
  | timedOut => rfl
  | ok payload =>
      cases payload with
      | jstr s => rfl
      | jnull => rfl
      | jarr elems =>
          cases elems with
          | nil => rfl
          | cons first rest =>
              cases first with
              | jstr s => rfl
              | jnull => rfl
              | jarr items => simp [upstreamFails] at hfail

/-- Witness for C3 on a timed-out call. -/
theorem translate_failure_returns_input_witness :
    (runTranslationTask ⟨"hello", "ru", "ru|hello"⟩ Upstream.timedOut
      (lruEmpty String 1000) 0).1 = "hello" :=
  translate_failure_returns_input "hello" "ru" Upstream.timedOut
    (lruEmpty String 1000) 0 rfl

/-- C10: `translate` with empty (falsy) text resolves immediately to the
empty string and leaves the service state untouched: nothing is pushed
on the queue (so no outbound call can ever be made for it) and no cache
entry is written. -/
theorem translate_empty_text (s : TransService) (targetLang : String) (now : Int) :
    translateEntry s "" targetLang now = (.immediate "", s)
    ∧ (translateEntry s "" targetLang now).2.queue = s.queue
    ∧ (translateEntry s "" targetLang now).2.cache = s.cache := by
  exact ⟨rfl, rfl, rfl⟩

/-- Process-wide caches touched by `SearchService.search`. -/
structure Caches where
  rss : LRUCache (List Article)
  translation : LRUCache String

/-- Refresh step at the head of `SearchService.search`: when `refresh`
is set, the feed cache is cleared before any fetch; nothing else is
touched. -/
def searchRefreshStep (refresh : Bool) (c : Caches) : Caches :=
  if refresh then { c with rss := lruClear c.rss } else c

/-- C9: with the force-refresh flag set the feed cache is emptied before
fetching — the first cache probe of any subsequent `fetchFeed` misses —
while the translation cache is left entirely unchanged. -/
theorem force_refresh_frame (c : Caches) (url : String) (now : Int) :
    (searchRefreshStep true c).rss.cache = []
    ∧ (searchRefreshStep true c).translation = c.translation
    ∧ (lruGet (searchRefreshStep true c).rss url now).1 = none := by
  exact ⟨rfl, rfl, rfl⟩

/-- Outcome of one outbound feed fetch as observed by the try-block of
`RSSService.fetchFeed`: a parsed item list, a non-OK HTTP status, an
abort by the timeout, or an XML parse failure. -/
inductive FetchOutcome where
  | success (items : List Item)
  | httpError (status : Nat)
  | timedOut
  | parseError

/-- Try-block of `RSSService.fetchFeed`: non-OK statuses, timeouts and
parse failures throw; a successful response is normalized item by item
(the JS `filter(Boolean)` keeps every record, since objects are truthy). -/
def fetchAttempt (env : JsDateEnv) (ft : String → Option String)
    (sourceKey : String) (o : FetchOutcome) : Except String (List Article) :=
  match o with
  | .httpError status => .error ("Status " ++ toString status)
  | .timedOut => .error "The user aborted a request."
  | .parseError => .error "Non-whitespace before first tag."
  | .success items =>
      .ok (items.enum.map (fun p => normalizeItem env ft sourceKey p.2 p.1))

/-- Catch-block of `RSSService.fetchFeed`: every failure is logged and
resolved to the empty article list, never re-thrown. -/
def fetchFeedResult (env : JsDateEnv) (ft : String → Option String)
    (sourceKey : String) (o : FetchOutcome) : List Article :=
  match fetchAttempt env ft sourceKey o with
  | .ok arts => arts
  | .error _ => []

/-- Fetch outcomes the claim calls broken: a timeout or a non-success
HTTP status. -/
def brokenOutcome : FetchOutcome → Bool
  | .httpError _ => true
  | .timedOut => true
  | _ => false

/-- Fan-out of `SearchService.search`: `Promise.all` over the selected
sources, flattened, modelled monadically so that a rejection of any
single per-source fetch would surface as an error of the whole
aggregate. -/
def aggregateFetch (env : JsDateEnv) (ft : String → Option String)
    (feeds : List (String × FetchOutcome)) : Except String (List Article) := do
  let lists ← feeds.mapM (fun p =>
    (Except.ok (fetchFeedResult env ft p.1 p.2) : Except String (List Article)))
  return lists.flatten

/-- C4: a feed fetch that times out or returns a non-success status
contributes the empty article list for its source, and the aggregate
fan-out always succeeds — it returns the flattened per-source
contributions, never an error, however many feeds are broken. -/
theorem broken_feed_isolation (env : JsDateEnv) (ft : String → Option String)
    (feeds : List (String × FetchOutcome)) :
    (∀ p ∈ feeds, brokenOutcome p.2 = true → fetchFeedResult env ft p.1 p.2 = [])
    ∧ aggregateFetch env ft feeds =
        .ok ((feeds.map (fun p => fetchFeedResult env ft p.1 p.2)).flatten) := by
  constructor
  · intro p _ hbroken
    match p with
    | (k, .httpError status) => rfl
    | (k, .timedOut) => rfl
    | (k, .parseError) => rfl
    | (k, .success items) => simp [brokenOutcome] at hbroken
  · have hmapM : ∀ (l : List (String × FetchOutcome)),
        l.mapM (fun p =>
          (Except.ok (fetchFeedResult env ft p.1 p.2) : Except String (List Article))) =
          .ok (l.map (fun p => fetchFeedResult env ft p.1 p.2)) := by
      intro l
      induction l with
      | nil => rfl
      | cons p rest ih =>
          rw [List.mapM_cons, ih]
          rfl
    unfold aggregateFetch
    rw [hmapM]
    rfl

/-- Witness for C4: one timed-out feed aggregates to a successful empty
result. -/
theorem broken_feed_isolation_witness :
    aggregateFetch trivialEnv (fun _ => none) [("bbc", FetchOutcome.timedOut)] =
      .ok ([] : List Article) :=
  (broken_feed_isolation trivialEnv (fun _ => none) [("bbc", FetchOutcome.timedOut)]).2

/-- The 5-minute feed cache TTL in milliseconds. -/
def RSS_TTL : Int := 5 * 60 * 1000

/-- Coalescing-relevant state of `RSSService`, instrumented: `outbound`
counts outbound HTTP requests ever issued, `nextId` names the promise a
newly started fetch will be. -/
structure RSSState where
  cache : LRUCache (List Article)
  pending : JsMap Nat
  outbound : Nat
  nextId : Nat

/-- What a caller of `fetchFeed` holds once its synchronous prefix has
run: an already-resolved article list (empty-URL guard or cache hit), or
the identity of the one pending fetch promise it now awaits. -/
inductive FetchCallResult where
  | immediate (arts : List Article)
  | awaiting (fetchId : Nat)
deriving Repr, DecidableEq

/-- Synchronous prefix of `RSSService.fetchFeed` — the atomic event-loop
segment from entry to the first suspension point: the empty-URL guard,
the cache probe, the pending-map probe, and (for the caller that finds
neither) issuing the outbound request and registering the pending
marker.  On the single-threaded event loop no other caller can run
between the probe and the registration. -/
def fetchFeedStart (st : RSSState) (url : String) (now : Int) :
    FetchCallResult × RSSState :=
  if url = "" then (.immediate [], st)
  else
    let probe := lruGet st.cache url now
    match probe.1 with
    | some cached => (.immediate cached, { st with cache := probe.2 })
    | none =>
        match mGet st.pending url with
        | some fid => (.awaiting fid, { st with cache := probe.2 })
        | none =>
            (.awaiting st.nextId,
              { st with
                  cache := probe.2
                  pending := mSet st.pending url st.nextId
                  outbound := st.outbound + 1
                  nextId := st.nextId + 1 })

/-- Completion segment of the fetch promise: on success the normalized
articles are cached under the URL with the 5-minute TTL and delivered;
on any failure the empty list is delivered; in both cases the `finally`
clause removes the pending marker.  Every caller awaiting this promise
receives the one delivered value. -/
def fetchFeedComplete (st : RSSState) (url : String) (env : JsDateEnv)
    (ft : String → Option String) (sourceKey : String) (o : FetchOutcome)
    (now : Int) : List Article × RSSState :=
  match fetchAttempt env ft sourceKey o with
  | .ok arts =>
      (arts, { st with cache := lruSet st.cache url arts RSS_TTL now,
                       pending := mDelete st.pending url })
  | .error _ => ([], { st with pending := mDelete st.pending url })

/-- A burst of callers for one URL inside a single event-loop window (no
completion runs in between). -/
def fetchFeedStartN : Nat → RSSState → String → Int → List FetchCallResult × RSSState
  | 0, st, _, _ => ([], st)
  | n + 1, st, url, now =>
      let r := fetchFeedStart st url now
      let rest := fetchFeedStartN n r.2 url now
      (r.1 :: rest.1, rest.2)

theorem mGet_mDelete_self {α : Type} (m : JsMap α) (k : String) :
    mGet (mDelete m k) k = none := by
  induction m with
  | nil => rfl
  | cons p rest ih =>
      by_cases h : p.1 = k
      · simpa [mDelete, mGet, h] using (by simpa [mDelete, mGet] using ih)
      · simpa [mDelete, mGet, List.find?, h] using (by simpa [mDelete, mGet] using ih)

theorem lruGet_none_stable {α : Type} (c : LRUCache α) (k : String) (now : Int)
    (h : (lruGet c k now).1 = none) :
    (lruGet (lruGet c k now).2 k now).1 = none := by
  cases hm : mGet c.cache k with
  | none =>
      have hstep : lruGet c k now = (none, c) := by
        unfold lruGet
        simp only [hm]
      simp [hstep]
  | some item =>
      by_cases hexp : item.expires ≠ 0 ∧ item.expires < now
      · have hstep : lruGet c k now =
            (none, { limit := c.limit, cache := mDelete c.cache k }) := by
          unfold lruGet
          simp only [hm]
          rw [if_pos hexp]
        rw [hstep]
        show (lruGet { limit := c.limit, cache := mDelete c.cache k } k now).1 = none
        unfold lruGet
        simp [mGet_mDelete_self]
      · have hstep : lruGet c k now =
            (some item.value, { limit := c.limit, cache := mSet (mDelete c.cache k) k item }) := by
          unfold lruGet
          simp only [hm]
          rw [if_neg hexp]
        rw [hstep] at h
        simp at h

theorem fetchFeedStartN_joined (url : String) (now : Int) (fid : Nat)
    (hurl : url ≠ "") :
    ∀ (m : Nat) (st : RSSState),
      (lruGet st.cache url now).1 = none →
      mGet st.pending url = some fid →
      fetchFeedStartN m st url now =
        (List.replicate m (.awaiting fid),
          (fetchFeedStartN m st url now).2)
      ∧ (fetchFeedStartN m st url now).2.pending = st.pending
      ∧ (fetchFeedStartN m st url now).2.outbound = st.outbound := by
  intro m
  induction m with
  | zero => intro st _ _; exact ⟨rfl, rfl, rfl⟩
  | succ n ih =>
      intro st hcache hpending
      have hstep : fetchFeedStart st url now =
          (.awaiting fid, { st with cache := (lruGet st.cache url now).2 }) := by
        unfold fetchFeedStart
        rw [if_neg hurl]
        simp only [hcache, hpending]
      have hcache' : (lruGet ({ st with cache := (lruGet st.cache url now).2 } : RSSState).cache
          url now).1 = none := lruGet_none_stable st.cache url now hcache
      have hpend' : mGet ({ st with cache := (lruGet st.cache url now).2 } : RSSState).pending
          url = some fid := hpending
      have hrec := ih { st with cache := (lruGet st.cache url now).2 } hcache' hpend'
      refine ⟨?_, ?_, ?_⟩
      · show (fetchFeedStartN (n + 1) st url now) = _
        unfold fetchFeedStartN
        rw [hstep]
        simp only [List.replicate_succ]
        rw [show (fetchFeedStartN n { st with cache := (lruGet st.cache url now).2 } url now).1 =
          List.replicate n (.awaiting fid) from congrArg Prod.fst hrec.1]
      · show (fetchFeedStartN (n + 1) st url now).2.pending = st.pending
        unfold fetchFeedStartN
        rw [hstep]
        exact hrec.2.1
      · show (fetchFeedStartN (n + 1) st url now).2.outbound = st.outbound
        unfold fetchFeedStartN
        rw [hstep]
        exact hrec.2.2

/-- C1: when `n + 1` callers for one uncached, not-yet-pending URL run
inside a single event-loop window, exactly one outbound request is
issued, every caller ends up awaiting the one same fetch promise (so
all receive the single value that promise delivers), and the pending
marker for the URL is removed by the completion segment whatever the
fetch outcome — success or any failure. -/
theorem coalescer_single_fetch (st : RSSState) (url : String) (now : Int) (n : Nat)
    (hurl : url ≠ "")
    (hcache : (lruGet st.cache url now).1 = none)
    (hpending : mGet st.pending url = none) :
    (fetchFeedStartN (n + 1) st url now).2.outbound = st.outbound + 1
    ∧ (fetchFeedStartN (n + 1) st url now).1 =
        List.replicate (n + 1) (.awaiting st.nextId)
    ∧ ∀ (env : JsDateEnv) (ft : String → Option String) (sourceKey : String)
        (o : FetchOutcome) (now2 : Int),
        mGet (fetchFeedComplete (fetchFeedStartN (n + 1) st url now).2 url env ft
          sourceKey o now2).2.pending url = none := by
  have hstep : fetchFeedStart st url now =
      (.awaiting st.nextId,
        { st with
            cache := (lruGet st.cache url now).2
            pending := mSet st.pending url st.nextId
            outbound := st.outbound + 1
            nextId := st.nextId + 1 }) := by
    unfold fetchFeedStart
    rw [if_neg hurl]
    simp only [hcache, hpending]
  have hst1cache : (lruGet ({ st with
      cache := (lruGet st.cache url now).2
      pending := mSet st.pending url st.nextId
      outbound := st.outbound + 1
      nextId := st.nextId + 1 } : RSSState).cache url now).1 = none :=
    lruGet_none_stable st.cache url now hcache
  have hst1pend : mGet ({ st with
      cache := (lruGet st.cache url now).2
      pending := mSet st.pending url st.nextId
      outbound := st.outbound + 1
      nextId := st.nextId + 1 } : RSSState).pending url = some st.nextId := by
    have hfind : st.pending.find? (fun p => decide (p.1 = url)) = none := by
      cases hf : st.pending.find? (fun p => decide (p.1 = url)) with
      | none => rfl
      | some q =>
          unfold mGet at hpending
          rw [hf] at hpending
          simp at hpending
    have hhas : mHas st.pending url = false := by
      unfold mHas
      rw [hfind]
      rfl
    show mGet (mSet st.pending url st.nextId) url = some st.nextId
    rw [mSet_fresh _ hhas]
    unfold mGet
    rw [List.find?_append, hfind]
    simp [List.find?]
  have hrest := fetchFeedStartN_joined url now st.nextId hurl n _ hst1cache hst1pend
  have hpendfinal : (fetchFeedStartN (n + 1) st url now).2.pending =
      mSet st.pending url st.nextId := by
    unfold fetchFeedStartN
    rw [hstep]
    exact hrest.2.1
  refine ⟨?_, ?_, ?_⟩
  · show (fetchFeedStartN (n + 1) st url now).2.outbound = st.outbound + 1
    unfold fetchFeedStartN
    rw [hstep]
    exact hrest.2.2
  · show (fetchFeedStartN (n + 1) st url now).1 = _
    unfold fetchFeedStartN
    rw [hstep]
    simp only [List.replicate_succ]
    rw [show (fetchFeedStartN n _ url now).1 =
      List.replicate n (.awaiting st.nextId) from congrArg Prod.fst hrest.1]
  · intro env ft sourceKey o now2
    unfold fetchFeedComplete
    cases fetchAttempt env ft sourceKey o with
    | ok arts =>
        show mGet (mDelete (fetchFeedStartN (n + 1) st url now).2.pending url) url = none
        exact mGet_mDelete_self _ _
    | error e =>
        show mGet (mDelete (fetchFeedStartN (n + 1) st url now).2.pending url) url = none
        exact mGet_mDelete_self _ _

/-- Initial `RSSService` state for the witness. -/
def freshRSSState : RSSState :=
  { cache := lruEmpty (List Article) 100, pending := [], outbound := 0, nextId := 0 }

/-- Witness for C1: two concurrent callers on a fresh state issue one
outbound request. -/
theorem coalescer_single_fetch_witness :
    (fetchFeedStartN 2 freshRSSState "https://feeds.bbci.co.uk/news/rss.xml" 0).2.outbound = 1 :=
  (coalescer_single_fetch freshRSSState "https://feeds.bbci.co.uk/news/rss.xml" 0 1
    (by decide) rfl rfl).1

end NewsAgg
